import Mathlib

/-!
Verification development for the mxw-sort pipeline.

Shallow embedding of the Python sources in src/mxw_sort/:
  preprocess.py  (bandpass parameter derivation/validation, time slicing)
  io_maxwell.py  (layout-tolerant reader, geometry resolution, well discovery)
  export.py      (binary export sample stream)
  qc.py          (QC summary statistics)
  pipeline.py    (per-well orchestration, skip/dry-run policy, directory modes)

Numeric values are modelled over ℚ (exact arithmetic standing for Python
floats), machine integer sample values over ℤ, and numpy arrays as
shape-plus-index-function records.  The filesystem is modelled as explicit
state: sets (lists) of directory paths and file paths, threaded through the
orchestration functions.  External collaborators (h5py reads, the kilosort
engine, matplotlib rendering) are modelled by the data they hand back to, or
the files they deposit for, the repository code, at the granularity the
repository code observes them.
-/

namespace MxwSort

/-! ## Numeric helpers -/

/-- Python `round` to an integer: nearest integer, ties to even
(banker's rounding), as used by `slice_seconds` in preprocess.py. -/
def pyRound (x : ℚ) : ℤ :=
  let f : ℤ := ⌊x⌋
  let r : ℚ := x - f
  if r < 1/2 then f
  else if 1/2 < r then f + 1
  else if f % 2 = 0 then f else f + 1

/-- `np.max` over a nonempty list (qc.py guards the empty case itself). -/
def npMax (l : List ℚ) : ℚ :=
  match l with
  | [] => 0
  | x :: xs => xs.foldl max x

/-- `np.unique`: sorted distinct values of a list. -/
def npUnique (l : List ℤ) : List ℤ :=
  (List.insertionSort (fun a b => a ≤ b) l).dedup

/-! ## preprocess.py -/

/-- The recording handle as the preprocessing chain sees it: sampling
frequency, channel count, frame count, and the sample matrix indexed
(frame, channel).  Slicing narrows the frame range only. -/
structure Rec where
  fs : ℚ
  nChan : ℕ
  nSamples : ℕ
  val : ℕ → ℕ → ℤ

/-- `rec.frame_slice(start_frame, end_frame)`: bounded sub-view on frames. -/
def Rec.frame_slice (r : Rec) (start_frame end_frame : ℕ) : Rec :=
  { fs := r.fs
    nChan := r.nChan
    nSamples := end_frame - start_frame
    val := fun f c => r.val (start_frame + f) c }

/-- preprocess.py `slice_seconds`: if `dur_s` is None return the recording
unchanged, else slice frames `[round(start_s*fs), round((start_s+dur_s)*fs))`.
Python's `int(...)` around `round` is the identity on the integer result. -/
def slice_seconds (rec : Rec) (start_s : ℚ) (dur_s : Option ℚ) : Rec :=
  match dur_s with
  | none => rec
  | some d =>
    let start_f := (pyRound (start_s * rec.fs)).toNat
    let end_f := (pyRound ((start_s + d) * rec.fs)).toNat
    rec.frame_slice start_f end_f

/-- The `fmax` the band-restriction stage derives in
preprocess.py `bandpass_to_frac_nyq`: `frac_nyq * nyq`, clamped to
`0.99 * nyq` when it reaches `nyq`. -/
def derivedFmax (frac_nyq fs : ℚ) : ℚ :=
  let nyq := fs / 2
  let fmax := frac_nyq * nyq
  if nyq ≤ fmax then (99/100) * nyq else fmax

/-- preprocess.py `bandpass_to_frac_nyq`: derive `fmax`, validate
`0 < fmin < fmax < nyq`; on violation raise carrying `(fmin, fmax, nyq)`
(the ValueError message reports all three), else hand `(fmin, fmax)` to the
external `bandpass_filter`. -/
def bandpass_to_frac_nyq (fmin frac_nyq fs : ℚ) : Except (ℚ × ℚ × ℚ) (ℚ × ℚ) :=
  let nyq := fs / 2
  let fmax := derivedFmax frac_nyq fs
  if 0 < fmin ∧ fmin < fmax ∧ fmax < nyq then Except.ok (fmin, fmax)
  else Except.error (fmin, fmax, nyq)

/-! ## io_maxwell.py -/

/-- A 1D numpy array: length plus index function (a view never copies). -/
structure Arr1 where
  len : ℕ
  val : ℕ → ℤ

/-- A 2D numpy array: shape plus index function. -/
structure Arr2 where
  rows : ℕ
  cols : ℕ
  val : ℕ → ℕ → ℤ

/-- `a[:, start:end]` on a 2D array (column slice, a view). -/
def Arr2.colSlice (a : Arr2) (start stop : ℕ) : Arr2 :=
  { rows := a.rows
    cols := min stop a.cols - start
    val := fun r c => a.val r (start + c) }

/-- `a.T` (transpose view). -/
def Arr2.T (a : Arr2) : Arr2 :=
  { rows := a.cols, cols := a.rows, val := fun r c => a.val c r }

/-- `a[:, idx]` fancy column indexing by an index list. -/
def Arr2.colIndex (a : Arr2) (idx : List ℕ) : Arr2 :=
  { rows := a.rows
    cols := idx.length
    val := fun r c => a.val r (idx.getD c 0) }

/-- `a[start:stop]` on a 1D array (a view). -/
def Arr1.slice (a : Arr1) (start stop : ℕ) : Arr1 :=
  { len := min stop a.len - start
    val := fun i => a.val (start + i) }

/-- `a.reshape(-1, n)`: rows recovered as `len / n`. -/
def Arr1.reshapeNeg1 (a : Arr1) (n : ℕ) : Arr2 :=
  { rows := a.len / n, cols := n, val := fun r c => a.val (r * n + c) }

/-- Row-major list-of-lists contents of a 2D array, for comparing results. -/
def Arr2.toLists (a : Arr2) : List (List ℤ) :=
  (List.range a.rows).map (fun r => (List.range a.cols).map (fun c => a.val r c))

/-- io_maxwell.py `_H5Segment.get_traces`, 2D branch: the raw dataset has
shape (n_channels, n_samples); read the column slice `[start:end]`,
transpose to (n_frames, n_channels), then optionally select channels. -/
def get_traces_2d (raw : Arr2) (start stop : ℕ) (channel_indices : Option (List ℕ)) :
    Arr2 :=
  let traces := ((raw.colSlice start stop).T)
  match channel_indices with
  | none => traces
  | some idx => traces.colIndex idx

/-- io_maxwell.py `_H5Segment.get_traces`, 1D branch: the raw dataset is a
flat interleaved stream; recover the channel count as
`raw.shape[0] // n_samples`, slice the flat range
`[start*n_ch : end*n_ch]`, reshape to (n_frames, n_channels), then
optionally select channels. -/
def get_traces_1d (raw : Arr1) (n_samples start stop : ℕ)
    (channel_indices : Option (List ℕ)) : Arr2 :=
  let n_ch := raw.len / n_samples
  let traces := (raw.slice (start * n_ch) (stop * n_ch)).reshapeNeg1 n_ch
  match channel_indices with
  | none => traces
  | some idx => traces.colIndex idx

/-- Python `int(s)` on a character sequence, as applied by well discovery to
the text after the leading `"well"`: optional sign followed by at least one
decimal digit (the common shape of these group-name suffixes);
anything else raises ValueError, modelled as `none`. -/
def pyIntChars (chars : List Char) : Option ℤ :=
  let core : List Char → Option ℕ := fun ds =>
    if ds ≠ [] ∧ ds.all Char.isDigit then
      some (ds.foldl (fun acc c => 10 * acc + (c.toNat - 48)) 0)
    else none
  match chars with
  | '-' :: rest => (core rest).map (fun n => -(n : ℤ))
  | '+' :: rest => (core rest).map (fun n => (n : ℤ))
  | _ => (core chars).map (fun n => (n : ℤ))

/-- Python `int(s)` on a string. -/
def pyInt (s : String) : Option ℤ :=
  pyIntChars s.toList

/-- The fixed canonical fallback well set of io_maxwell.py. -/
def defaultWells : List ℤ := [0, 1, 2, 3, 4, 5]

/-- One group name's contribution to well discovery: a name starting with
`"well"` whose remaining text `name[4:]` parses as an int contributes that
index; any other name is skipped (the parse ValueError is caught with
`continue`). -/
def parseWellName (n : String) : Option ℤ :=
  if List.isPrefixOf ("well".toList) n.toList then pyIntChars (n.toList.drop 4)
  else none

/-- io_maxwell.py `get_available_wells`.  The file's observable content is
`wellGroups`: `none` when opening fails or no `"wells"` group exists (both
return the default), `some names` for the group-name listing.  Names
starting with `"well"` whose suffix parses as an int contribute that index;
parse failures are skipped; an empty collection falls back to the default;
otherwise the sorted tuple is returned. -/
def get_available_wells (wellGroups : Option (List String)) : List ℤ :=
  match wellGroups with
  | none => defaultWells
  | some names =>
    let wells := names.filterMap parseWellName
    if wells = [] then defaultWells
    else List.insertionSort (fun a b => a ≤ b) wells

/-- One row of the `settings/mapping` table: channel id and x/y position. -/
structure MapRow where
  channel : ℤ
  x : ℚ
  y : ℚ

/-- The dict comprehension `{int(m["channel"]): i for i, m in
enumerate(mapping)}` followed by lookup of `c`: when a channel id repeats,
the later row wins, so this is the last index whose row carries id `c`. -/
def chanToRow (mapping : List MapRow) (c : ℤ) : Option ℕ :=
  (List.range mapping.length).foldl
    (fun acc i => if (mapping.getD i ⟨0, 0, 0⟩).channel = c then some i else acc)
    none

/-- The per-id step of geometry resolution: `row_idx` lookup through the
id→row dict followed by reading that mapping row's (x, y) columns
(`KeyError`, modelled as `none`, if the id is absent). -/
def geomOf (mapping : List MapRow) (c : ℤ) : Option (ℚ × ℚ) :=
  (chanToRow mapping c).map
    (fun i => ((mapping.getD i ⟨0, 0, 0⟩).x, (mapping.getD i ⟨0, 0, 0⟩).y))

/-- io_maxwell.py `MaxwellH5Recording.__init__`, geometry resolution: with
an explicit `channels` dataset, look each channel id up in the mapping via
the id→row dict and take that row's (x, y), in the id list's order;
without it, take the mapping's own row order. -/
def resolve_geometry (mapping : List MapRow) (chanIds : Option (List ℤ)) :
    Option (List (ℚ × ℚ)) :=
  match chanIds with
  | some ids => ids.mapM (geomOf mapping)
  | none => some (mapping.map (fun m => (m.x, m.y)))

/-! ## export.py -/

/-- export.py `write_binary` materializes the recording to a flat binary
sample stream in strict frame order (frame-major, interleaved by channel);
this is the sequence of samples the written file contains.  The configured
dtype (int16) fixes the per-sample width; the sample count is what the
claims observe. -/
def write_binary (rec : Rec) : List ℤ :=
  (List.range rec.nSamples).flatMap
    (fun f => (List.range rec.nChan).map (fun c => rec.val f c))

/-! ## qc.py (summary statistics of write_qc) -/

/-- Spike times converted to seconds: `spike_times.astype(float64) / fs_hz`.
The inputs are the engine's sample indices (unsigned integers). -/
def spikeTimesSeconds (spike_times : List ℕ) (fs_hz : ℚ) : List ℚ :=
  spike_times.map (fun (t : ℕ) => (t : ℚ) / fs_hz)

/-- qc.py `write_qc`, effective duration: the caller-provided
`dur_s_processed` if not None, else `max(t_s)` when there are spikes,
else 0. -/
def effectiveDuration (t_s : List ℚ) (dur_s_processed : Option ℚ) : ℚ :=
  match dur_s_processed with
  | some d => d
  | none => if t_s = [] then 0 else npMax t_s

/-- qc.py `write_qc`, per-unit firing rate for unit `u`:
`np.sum(spike_clusters == u) / dur` when `dur > 0`, else `0.0`. -/
def unitFiringRate (spike_clusters : List ℤ) (dur : ℚ) (u : ℤ) : ℚ :=
  if 0 < dur then (spike_clusters.count u : ℚ) / dur else 0

/-- qc.py `write_qc`, the unit id list of the summary:
`np.unique(spike_clusters)`. -/
def qcUnitIds (spike_clusters : List ℤ) : List ℤ :=
  npUnique spike_clusters

/-! ## pipeline.py: filesystem state and orchestration -/

/-- A filesystem path, as its list of components. -/
abbrev FPath := List String

/-- Filesystem state: the existing directories and files.  `writeFile`
always prepends a fresh entry, so every write call (creation or
overwrite) changes the state, while `mkdir` with `exist_ok` on an existing
directory leaves it untouched — "zero filesystem mutations" is state
equality. -/
structure FS where
  dirs : List FPath
  files : List FPath
deriving DecidableEq, Repr

/-- Directory existence. -/
def FS.hasDir (fs : FS) (p : FPath) : Bool := decide (p ∈ fs.dirs)

/-- File existence (`Path.exists`). -/
def FS.hasFile (fs : FS) (p : FPath) : Bool := decide (p ∈ fs.files)

/-- One directory level of `mkdir(exist_ok=True)`. -/
def FS.mkdir1 (fs : FS) (p : FPath) : FS :=
  if fs.hasDir p then fs else { fs with dirs := p :: fs.dirs }

/-- `Path.mkdir(parents=True, exist_ok=True)`: create every missing
ancestor, then the directory itself. -/
def FS.mkdirParents (fs : FS) (p : FPath) : FS :=
  (List.range p.length).foldl (fun acc i => acc.mkdir1 (p.take (i + 1))) fs

/-- A file write (any content): records the path anew. -/
def FS.writeFile (fs : FS) (p : FPath) : FS :=
  { fs with files := p :: fs.files }

/-- `f"well{well_idx:03d}"`: zero-padded to a minimum field width of 3
(sign included for negatives, as Python formats them). -/
def streamName (w : ℤ) : String :=
  let padTo : ℕ → List Char → List Char := fun n ds =>
    List.replicate (n - ds.length) '0' ++ ds
  if w < 0 then "well-" ++ String.mk (padTo 2 (Nat.toDigits 10 w.natAbs))
  else "well" ++ String.mk (padTo 3 (Nat.toDigits 10 w.natAbs))

/-- config.py `PipelineConfig` (processing parameters). -/
structure PipelineConfig where
  start_s : ℚ := 0
  dur_s : Option ℚ := some 30
  bp_min_hz : ℚ := 300
  bp_max_frac_nyq : ℚ := 9/10
  ks4_highpass_cutoff_hz : ℚ := 1
  ks4_batch_size : ℕ := 60000
deriving DecidableEq, Repr

/-- pipeline.py `_ks4_done`: both completion-marker arrays exist in the
well's ks4 directory. -/
def ks4_done (fs : FS) (ks_dir : FPath) : Bool :=
  fs.hasFile (ks_dir ++ ["spike_times.npy"]) &&
    fs.hasFile (ks_dir ++ ["spike_clusters.npy"])

/-- What the outside world hands one well's processing run:
`durationProbe` is `get_well_duration_s` on this file and stream (`none`
when that probe raises); `readOk` is whether `read_maxwell` succeeds
(layout resolves, file readable); `fsHz` is the recording's reported
sampling frequency; `ks4Ok` is whether the external kilosort engine
completes (depositing its output arrays). -/
structure WellWorld where
  durationProbe : Option ℚ
  readOk : Bool
  fsHz : ℚ
  ks4Ok : Bool

/-- Terminal state of one well's run: skipped, dry-run preview (carrying
the duration shown — `none` prints "unknown" — and the intended output
paths printed), failed (an exception propagates), or completed. -/
inductive WellResult
  | skipped
  | dryRun (shownDuration : Option ℚ) (plannedPaths : List FPath)
  | failed
  | completed
deriving DecidableEq, Repr

/-- `true` exactly on the dry-run preview outcome. -/
def WellResult.isDryRun : WellResult → Bool
  | .dryRun _ _ => true
  | _ => false

/-- The Running-state body of pipeline.py `process_one_well`, from the
`prep_dir.mkdir` calls onward: create the three output directories, read
and lazily preprocess (the band validation of `bandpass_to_frac_nyq` may
raise), export the four preprocessed artifacts in source order
(binary, channel xy, probe json, meta json), run the external engine
(on completion it deposits the output arrays the pipeline observes — the
two marker files), and run `write_qc` (its own `mkdir`, its check for the
required arrays, then summary and raster). -/
def run_well_body (world : WellWorld) (cfg : PipelineConfig)
    (prep_dir ks_dir qc_dir bin_path probe_path xy_path meta_path : FPath)
    (fs0 : FS) : FS × WellResult :=
  let fs1 := ((fs0.mkdirParents prep_dir).mkdirParents ks_dir).mkdirParents qc_dir
  if !world.readOk then (fs1, .failed)
  else if !(bandpass_to_frac_nyq cfg.bp_min_hz cfg.bp_max_frac_nyq world.fsHz).isOk
  then (fs1, .failed)
  else
    let fs2 := (((fs1.writeFile bin_path).writeFile xy_path).writeFile
      probe_path).writeFile meta_path
    if !world.ks4Ok then (fs2, .failed)
    else
      let fs3 := (fs2.writeFile (ks_dir ++ ["spike_times.npy"])).writeFile
        (ks_dir ++ ["spike_clusters.npy"])
      let fs4 := fs3.mkdirParents qc_dir
      if !(ks4_done fs3 ks_dir) then (fs4, .failed)
      else
        let fs5 := (fs4.writeFile (qc_dir ++ ["qc_summary.json"])).writeFile
          (qc_dir ++ ["raster.png"])
        (fs5, .completed)

/-- pipeline.py `process_one_well`.  Mirrors the source order: build the
per-well paths; skip when `skip_existing` and the ks4 markers exist;
otherwise on `dry_run` print the probed duration (failure shown as
unknown) and the intended outputs and return with the state untouched;
otherwise enter the Running body. -/
def process_one_well (world : WellWorld) (out_root : FPath)
    (cfg : PipelineConfig) (well_idx : ℤ) (skip_existing dry_run : Bool)
    (fs0 : FS) : FS × WellResult :=
  let stream := streamName well_idx
  let well_dir := out_root ++ [stream]
  let prep_dir := well_dir ++ ["preprocessed"]
  let ks_dir := well_dir ++ ["ks4"]
  let qc_dir := well_dir ++ ["qc"]
  let bin_path := prep_dir ++ ["traces.bin"]
  let probe_path := prep_dir ++ ["ks4_probe.json"]
  let xy_path := prep_dir ++ ["channel_xy.npy"]
  let meta_path := prep_dir ++ ["meta.json"]
  if skip_existing && ks4_done fs0 ks_dir then
    (fs0, .skipped)
  else if dry_run then
    (fs0, .dryRun world.durationProbe [bin_path, probe_path, ks_dir, qc_dir])
  else
    run_well_body world cfg prep_dir ks_dir qc_dir bin_path probe_path xy_path
      meta_path fs0

/-- The well loop of pipeline.py `process_h5`: wells strictly in order; a
raised exception propagates, so a failed well aborts the remaining ones. -/
def process_h5_wells (wellWorld : ℤ → WellWorld) (out_root : FPath)
    (cfg : PipelineConfig) (skip_existing dry_run : Bool) :
    List ℤ → FS → FS × List WellResult
  | [], fs => (fs, [])
  | w :: ws, fs =>
    let res := process_one_well (wellWorld w) out_root cfg w skip_existing dry_run fs
    if res.2 = .failed then (res.1, [WellResult.failed])
    else
      let rest := process_h5_wells wellWorld out_root cfg skip_existing dry_run ws res.1
      (rest.1, res.2 :: rest.2)

/-- pipeline.py `process_h5` well selection: `only_well` overrides
everything; an explicit tuple is used as given; otherwise auto-detect via
`get_available_wells`. -/
def resolveWells (wellGroups : Option (List String)) (wells : Option (List ℤ))
    (only_well : Option ℤ) : List ℤ :=
  match only_well with
  | some w => [w]
  | none =>
    match wells with
    | some ws => ws
    | none => get_available_wells wellGroups

/-- pipeline.py `process_h5` (single-file orchestration). -/
def process_h5 (wellGroups : Option (List String)) (wellWorld : ℤ → WellWorld)
    (out_root : FPath) (cfg : PipelineConfig) (wells : Option (List ℤ))
    (only_well : Option ℤ) (skip_existing dry_run : Bool) (fs0 : FS) :
    FS × List WellResult :=
  process_h5_wells wellWorld out_root cfg skip_existing dry_run
    (resolveWells wellGroups wells only_well) fs0

/-- Python `Path(name).stem`: the file name minus its last suffix (a sole
leading dot is not a suffix). -/
def pathStem (name : String) : String :=
  let cs := name.toList
  match cs.reverse.findIdx? (fun c => c = '.') with
  | none => name
  | some i =>
    if i + 1 = cs.length then name
    else String.mk (cs.take (cs.length - 1 - i))

/-- One discovered input file: its directory path relative to the traversal
root, its name, and the world its contents present (well-group listing plus
each well's `WellWorld`). -/
structure H5File where
  relParent : FPath
  name : String
  wellGroups : Option (List String)
  wellWorld : ℤ → WellWorld

/-- The file loop of pipeline.py `process_directory`: for each file (in the
sorted order of the listing) the per-file output directory mirroring the
relative subdirectory is created — unconditionally — and the file is
dispatched to `process_h5`; the informational pre-loop listing (duration
probes wrapped in try/except) is read-only.  A propagating failure aborts
the remaining files. -/
def process_directory_files (out_root : FPath) (cfg : PipelineConfig)
    (wells : Option (List ℤ)) (only_well : Option ℤ)
    (skip_existing dry_run : Bool) :
    List H5File → FS → FS × List (List WellResult)
  | [], fs => (fs, [])
  | f :: rest, fs =>
    let file_out := out_root ++ f.relParent
    let fs1 := fs.mkdirParents file_out
    let res := process_h5 f.wellGroups f.wellWorld file_out cfg wells only_well
      skip_existing dry_run fs1
    if WellResult.failed ∈ res.2 then (res.1, [res.2])
    else
      let r2 := process_directory_files out_root cfg wells only_well
        skip_existing dry_run rest res.1
      (r2.1, res.2 :: r2.2)

/-- pipeline.py `process_directory` (recursive mode): `files` is the sorted
`rglob("*.h5")` result; an empty listing only prints. -/
def process_directory (files : List H5File) (out_root : FPath)
    (cfg : PipelineConfig) (wells : Option (List ℤ)) (only_well : Option ℤ)
    (skip_existing dry_run : Bool) (fs0 : FS) : FS × List (List WellResult) :=
  process_directory_files out_root cfg wells only_well skip_existing dry_run
    files fs0

/-- The file loop of pipeline.py `process_directory_flat`: as the recursive
mode, but every file sits directly in the root and its output directory is
named by the file's stem. -/
def process_directory_flat_files (out_root : FPath) (cfg : PipelineConfig)
    (wells : Option (List ℤ)) (only_well : Option ℤ)
    (skip_existing dry_run : Bool) :
    List H5File → FS → FS × List (List WellResult)
  | [], fs => (fs, [])
  | f :: rest, fs =>
    let file_out := out_root ++ [pathStem f.name]
    let fs1 := fs.mkdirParents file_out
    let res := process_h5 f.wellGroups f.wellWorld file_out cfg wells only_well
      skip_existing dry_run fs1
    if WellResult.failed ∈ res.2 then (res.1, [res.2])
    else
      let r2 := process_directory_flat_files out_root cfg wells only_well
        skip_existing dry_run rest res.1
      (r2.1, res.2 :: r2.2)

/-- pipeline.py `process_directory_flat` (flat mode). -/
def process_directory_flat (files : List H5File) (out_root : FPath)
    (cfg : PipelineConfig) (wells : Option (List ℤ)) (only_well : Option ℤ)
    (skip_existing dry_run : Bool) (fs0 : FS) : FS × List (List WellResult) :=
  process_directory_flat_files out_root cfg wells only_well skip_existing
    dry_run files fs0

/-! ## Pipeline model lemmas -/

/-- `mkdir1` never touches files. -/
theorem FS.files_mkdir1 (fs : FS) (p : FPath) : (fs.mkdir1 p).files = fs.files := by
  unfold FS.mkdir1
  split <;> rfl

/-- `mkdirParents` never touches files. -/
theorem FS.files_mkdirParents (fs : FS) (p : FPath) :
    (fs.mkdirParents p).files = fs.files := by
  unfold FS.mkdirParents
  generalize List.range p.length = l
  induction l generalizing fs with
  | nil => rfl
  | cons i is ih => rw [List.foldl_cons, ih, FS.files_mkdir1]

/-- Files accumulate across a write. -/
theorem FS.mem_files_writeFile (fs : FS) (p q : FPath) (h : p ∈ fs.files) :
    p ∈ (fs.writeFile q).files :=
  List.mem_cons_of_mem q h

/-- `mkdirParents` on an already existing directory chain is the identity. -/
theorem FS.mkdirParents_of_hasDir (fs : FS) (p : FPath)
    (h : ∀ i, i < p.length → (p.take (i + 1)) ∈ fs.dirs) :
    fs.mkdirParents p = fs := by
  unfold FS.mkdirParents
  have : ∀ l : List ℕ, (∀ i ∈ l, i < p.length) →
      l.foldl (fun acc i => acc.mkdir1 (p.take (i + 1))) fs = fs := by
    intro l
    induction l with
    | nil => intro _; rfl
    | cons i is ih =>
      intro hl
      rw [List.foldl_cons]
      have h1 : fs.mkdir1 (p.take (i + 1)) = fs := by
        unfold FS.mkdir1 FS.hasDir
        rw [if_pos (by simpa using h i (hl i (List.mem_cons_self i is)))]
      rw [h1]
      exact ih (fun j hj => hl j (List.mem_cons_of_mem i hj))
  exact this _ (fun i hi => List.mem_range.mp hi)

/-- The Running body ends in failure or completion, never skip or preview. -/
theorem run_well_body_result (world : WellWorld) (cfg : PipelineConfig)
    (prep_dir ks_dir qc_dir bin_path probe_path xy_path meta_path : FPath)
    (fs0 : FS) :
    (run_well_body world cfg prep_dir ks_dir qc_dir bin_path probe_path xy_path
        meta_path fs0).2 = .failed ∨
      (run_well_body world cfg prep_dir ks_dir qc_dir bin_path probe_path xy_path
        meta_path fs0).2 = .completed := by
  simp only [run_well_body]
  split_ifs <;> simp

/-- The Running body never loses a file. -/
theorem run_well_body_files_mono (world : WellWorld) (cfg : PipelineConfig)
    (prep_dir ks_dir qc_dir bin_path probe_path xy_path meta_path : FPath)
    (fs0 : FS) (p : FPath) (hp : p ∈ fs0.files) :
    p ∈ (run_well_body world cfg prep_dir ks_dir qc_dir bin_path probe_path
      xy_path meta_path fs0).1.files := by
  simp only [run_well_body]
  split_ifs <;>
    simp_all [FS.writeFile, FS.files_mkdirParents, List.mem_cons]

/-- The markers stay visible in any larger file set. -/
theorem ks4_done_mono (fs fs' : FS) (d : FPath) (h : ks4_done fs d = true)
    (hsub : ∀ p, p ∈ fs.files → p ∈ fs'.files) : ks4_done fs' d = true := by
  simp only [ks4_done, FS.hasFile, Bool.and_eq_true, decide_eq_true_eq] at h ⊢
  exact ⟨hsub _ h.1, hsub _ h.2⟩

/-- A completed Running body leaves both ks4 marker files on disk. -/
theorem run_well_body_completed_markers (world : WellWorld) (cfg : PipelineConfig)
    (prep_dir ks_dir qc_dir bin_path probe_path xy_path meta_path : FPath)
    (fs0 : FS)
    (h : (run_well_body world cfg prep_dir ks_dir qc_dir bin_path probe_path
      xy_path meta_path fs0).2 = .completed) :
    ks4_done (run_well_body world cfg prep_dir ks_dir qc_dir bin_path probe_path
      xy_path meta_path fs0).1 ks_dir = true := by
  simp only [run_well_body] at h ⊢
  split_ifs at h ⊢ <;>
    simp_all [ks4_done, FS.hasFile, FS.writeFile, FS.files_mkdirParents]

/-- Skip branch: with the gate true the well returns untouched. -/
theorem process_one_well_skip (world : WellWorld) (out_root : FPath)
    (cfg : PipelineConfig) (w : ℤ) (skip_existing dry_run : Bool) (fs0 : FS)
    (h : (skip_existing &&
      ks4_done fs0 (out_root ++ [streamName w, "ks4"])) = true) :
    process_one_well world out_root cfg w skip_existing dry_run fs0 =
      (fs0, .skipped) := by
  have h1 := (Bool.and_eq_true _ _).mp h
  simp [process_one_well, h1.1, h1.2]

/-- Dry-run branch: with the skip gate false and dry-run requested, the
well returns untouched with the preview (probed duration, intended
paths). -/
theorem process_one_well_dry (world : WellWorld) (out_root : FPath)
    (cfg : PipelineConfig) (w : ℤ) (skip_existing dry_run : Bool) (fs0 : FS)
    (hns : (skip_existing &&
      ks4_done fs0 (out_root ++ [streamName w, "ks4"])) = false)
    (hdry : dry_run = true) :
    process_one_well world out_root cfg w skip_existing dry_run fs0 =
      (fs0, .dryRun world.durationProbe
        [out_root ++ [streamName w, "preprocessed", "traces.bin"],
          out_root ++ [streamName w, "preprocessed", "ks4_probe.json"],
          out_root ++ [streamName w, "ks4"],
          out_root ++ [streamName w, "qc"]]) := by
  simp only [process_one_well, hdry]
  rw [if_neg (by simp_all)]
  simp [List.append_assoc]

/-- Running branch: with both gates passed the well runs the body. -/
theorem process_one_well_run (world : WellWorld) (out_root : FPath)
    (cfg : PipelineConfig) (w : ℤ) (skip_existing dry_run : Bool) (fs0 : FS)
    (hns : (skip_existing &&
      ks4_done fs0 (out_root ++ [streamName w, "ks4"])) = false)
    (hdry : dry_run = false) :
    process_one_well world out_root cfg w skip_existing dry_run fs0 =
      run_well_body world cfg
        (out_root ++ [streamName w, "preprocessed"])
        (out_root ++ [streamName w, "ks4"])
        (out_root ++ [streamName w, "qc"])
        (out_root ++ [streamName w, "preprocessed", "traces.bin"])
        (out_root ++ [streamName w, "preprocessed", "ks4_probe.json"])
        (out_root ++ [streamName w, "preprocessed", "channel_xy.npy"])
        (out_root ++ [streamName w, "preprocessed", "meta.json"]) fs0 := by
  simp only [process_one_well, hdry]
  rw [if_neg (by simp_all), if_neg (by simp)]
  simp [List.append_assoc]

/-- A single well run never loses a file. -/
theorem process_one_well_files_mono (world : WellWorld) (out_root : FPath)
    (cfg : PipelineConfig) (w : ℤ) (skip_existing dry_run : Bool) (fs0 : FS)
    (p : FPath) (hp : p ∈ fs0.files) :
    p ∈ (process_one_well world out_root cfg w skip_existing dry_run fs0).1.files := by
  by_cases hgate : (skip_existing &&
      ks4_done fs0 (out_root ++ [streamName w, "ks4"])) = true
  · rw [process_one_well_skip world out_root cfg w skip_existing dry_run fs0 hgate]
    exact hp
  · have hgf := Bool.eq_false_iff.mpr hgate
    cases hdry : dry_run with
    | true =>
      rw [process_one_well_dry world out_root cfg w skip_existing true fs0 hgf rfl]
      exact hp
    | false =>
      rw [process_one_well_run world out_root cfg w skip_existing false fs0 hgf rfl]
      exact run_well_body_files_mono _ _ _ _ _ _ _ _ _ _ p hp

/-- With skip-existing on, the Skip outcome happens exactly when both
markers already exist; and then the state is returned untouched. -/
theorem process_one_well_skipped_iff (world : WellWorld) (out_root : FPath)
    (cfg : PipelineConfig) (w : ℤ) (dry_run : Bool) (fs0 : FS) :
    ((process_one_well world out_root cfg w true dry_run fs0).2 = .skipped ↔
      ks4_done fs0 (out_root ++ [streamName w, "ks4"]) = true) ∧
    ((process_one_well world out_root cfg w true dry_run fs0).2 = .skipped →
      (process_one_well world out_root cfg w true dry_run fs0).1 = fs0) := by
  by_cases hd : ks4_done fs0 (out_root ++ [streamName w, "ks4"]) = true
  · rw [process_one_well_skip world out_root cfg w true dry_run fs0 (by simp [hd])]
    exact ⟨by simp [hd], fun _ => rfl⟩
  · have hgf : (true && ks4_done fs0 (out_root ++ [streamName w, "ks4"])) = false := by
      simp [Bool.eq_false_iff.mpr hd]
    have hne : (process_one_well world out_root cfg w true dry_run fs0).2 ≠
        WellResult.skipped := by
      cases hdry : dry_run with
      | true =>
        rw [process_one_well_dry world out_root cfg w true true fs0 hgf rfl]
        intro hc; cases hc
      | false =>
        rw [process_one_well_run world out_root cfg w true false fs0 hgf rfl]
        rcases run_well_body_result world cfg
          (out_root ++ [streamName w, "preprocessed"])
          (out_root ++ [streamName w, "ks4"])
          (out_root ++ [streamName w, "qc"])
          (out_root ++ [streamName w, "preprocessed", "traces.bin"])
          (out_root ++ [streamName w, "preprocessed", "ks4_probe.json"])
          (out_root ++ [streamName w, "preprocessed", "channel_xy.npy"])
          (out_root ++ [streamName w, "preprocessed", "meta.json"]) fs0 with hr | hr <;>
          rw [hr] <;> (intro hc; cases hc)
    exact ⟨⟨fun hc => absurd hc hne, fun hc => absurd hc hd⟩,
      fun hc => absurd hc hne⟩

/-- A completed well run leaves both its markers on disk. -/
theorem process_one_well_completed_markers (world : WellWorld) (out_root : FPath)
    (cfg : PipelineConfig) (w : ℤ) (skip_existing dry_run : Bool) (fs0 : FS)
    (h : (process_one_well world out_root cfg w skip_existing dry_run fs0).2 =
      .completed) :
    ks4_done (process_one_well world out_root cfg w skip_existing dry_run fs0).1
      (out_root ++ [streamName w, "ks4"]) = true := by
  by_cases hgate : (skip_existing &&
      ks4_done fs0 (out_root ++ [streamName w, "ks4"])) = true
  · rw [process_one_well_skip world out_root cfg w skip_existing dry_run fs0 hgate] at h
    cases h
  · have hgf := Bool.eq_false_iff.mpr hgate
    cases hdry : dry_run with
    | true =>
      rw [hdry] at h
      rw [process_one_well_dry world out_root cfg w skip_existing true fs0 hgf rfl] at h
      cases h
    | false =>
      rw [hdry] at h
      rw [process_one_well_run world out_root cfg w skip_existing false fs0 hgf rfl] at h ⊢
      exact run_well_body_completed_markers _ _ _ _ _ _ _ _ _ _ h

/-- A skipped well run (with skip-existing on) already had its markers. -/
theorem process_one_well_skipped_markers (world : WellWorld) (out_root : FPath)
    (cfg : PipelineConfig) (w : ℤ) (dry_run : Bool) (fs0 : FS)
    (h : (process_one_well world out_root cfg w true dry_run fs0).2 = .skipped) :
    ks4_done (process_one_well world out_root cfg w true dry_run fs0).1
      (out_root ++ [streamName w, "ks4"]) = true := by
  have hiff := process_one_well_skipped_iff world out_root cfg w dry_run fs0
  rw [hiff.2 h]
  exact hiff.1.mp h

/-- The well loop never loses a file. -/
theorem process_h5_wells_files_mono (wellWorld : ℤ → WellWorld) (out_root : FPath)
    (cfg : PipelineConfig) (skip_existing dry_run : Bool) :
    ∀ (ws : List ℤ) (fs : FS) (p : FPath), p ∈ fs.files →
      p ∈ (process_h5_wells wellWorld out_root cfg skip_existing dry_run ws fs).1.files := by
  intro ws
  induction ws with
  | nil => intro fs p hp; exact hp
  | cons w ws ih =>
    intro fs p hp
    simp only [process_h5_wells]
    split
    · exact process_one_well_files_mono _ _ _ _ _ _ _ _ hp
    · exact ih _ p (process_one_well_files_mono _ _ _ _ _ _ _ _ hp)

/-- After a loop whose results are all Done or Skip (skip-existing on),
every processed well's markers are on disk. -/
theorem process_h5_wells_markers (wellWorld : ℤ → WellWorld) (out_root : FPath)
    (cfg : PipelineConfig) (dry_run : Bool) :
    ∀ (ws : List ℤ) (fs : FS),
      (∀ r ∈ (process_h5_wells wellWorld out_root cfg true dry_run ws fs).2,
        r = .completed ∨ r = .skipped) →
      ∀ w ∈ ws, ks4_done
        (process_h5_wells wellWorld out_root cfg true dry_run ws fs).1
        (out_root ++ [streamName w, "ks4"]) = true := by
  intro ws
  induction ws with
  | nil => intro fs _ w hw; cases hw
  | cons v ws ih =>
    intro fs hall w hw
    simp only [process_h5_wells] at hall ⊢
    split at hall
    · rename_i hfail
      exact absurd (hall WellResult.failed (by simp)) (by simp)
    · rename_i hfail
      rw [if_neg hfail]
      have hhead : (process_one_well (wellWorld v) out_root cfg v true dry_run fs).2 =
          .completed ∨
          (process_one_well (wellWorld v) out_root cfg v true dry_run fs).2 =
          .skipped := by
        exact hall _ (by simp)
      rcases List.mem_cons.mp hw with hww | hww
      · subst hww
        have hmark : ks4_done
            (process_one_well (wellWorld w) out_root cfg w true dry_run fs).1
            (out_root ++ [streamName w, "ks4"]) = true := by
          rcases hhead with hc | hc
          · exact process_one_well_completed_markers _ _ _ _ _ _ _ hc
          · exact process_one_well_skipped_markers _ _ _ _ _ _ hc
        exact ks4_done_mono _ _ _ hmark
          (fun p hp => process_h5_wells_files_mono _ _ _ _ _ _ _ p hp)
      · exact ih _ (fun r hr => hall r (List.mem_cons_of_mem _ hr)) w hww

/-- When every well's markers already exist, the loop (skip-existing on)
skips every well and leaves the state untouched. -/
theorem process_h5_wells_all_done (wellWorld : ℤ → WellWorld) (out_root : FPath)
    (cfg : PipelineConfig) (dry_run : Bool) :
    ∀ (ws : List ℤ) (fs : FS),
      (∀ w ∈ ws, ks4_done fs (out_root ++ [streamName w, "ks4"]) = true) →
      process_h5_wells wellWorld out_root cfg true dry_run ws fs =
        (fs, ws.map (fun _ => WellResult.skipped)) := by
  intro ws
  induction ws with
  | nil => intro fs _; rfl
  | cons v ws ih =>
    intro fs hall
    have hv := hall v (List.mem_cons_self v ws)
    have hskip := process_one_well_skip (wellWorld v) out_root cfg v true dry_run fs
      (by simp [hv])
    simp only [process_h5_wells, hskip]
    rw [if_neg (by intro hc; cases hc)]
    rw [ih fs (fun w hw => hall w (List.mem_cons_of_mem v hw))]
    rfl

/-- A preview outcome is exactly a `dryRun` constructor. -/
theorem WellResult.isDryRun_iff (r : WellResult) :
    r.isDryRun = true ↔ ∃ d ps, r = .dryRun d ps := by
  cases r <;> simp [WellResult.isDryRun]

/-! ## Claims -/

/-- C2, counterexample: at `fs = 2` and `fraction_of_nyquist = 199/200`
(inside the open interval (0,1), with `fs > 0`), the derived `max_hz` is
`199/200`, not `min(frac * fs/2, 0.99 * fs/2) = 99/100` — the clamp to
`0.99 * nyquist` never triggers for fractions below 1, so the claimed
`min` formula fails on fractions in (0.99, 1). -/
theorem C2_counterexample :
    (0 : ℚ) < 2 ∧ (0 : ℚ) < 199/200 ∧ (199/200 : ℚ) < 1 ∧
      derivedFmax (199/200) 2 ≠
        min ((199/200 : ℚ) * (2 / 2)) ((99/100 : ℚ) * (2 / 2)) := by
  refine ⟨by norm_num, by norm_num, by norm_num, ?_⟩
  norm_num [derivedFmax]

/-- C2, amended: for every sampling rate `fs > 0` and every
`fraction_of_nyquist` in the open interval (0,1), the `max_hz` derived by
the band-restriction stage equals `fraction_of_nyquist * fs/2` outright
(the clamp to `0.99 * fs/2` applies only when the computed value reaches
the Nyquist frequency, i.e. only for fractions ≥ 1). -/
theorem C2_derived_max_hz (fs frac_nyq : ℚ) (hfs : 0 < fs) (h0 : 0 < frac_nyq)
    (h1 : frac_nyq < 1) :
    derivedFmax frac_nyq fs = frac_nyq * (fs / 2) := by
  unfold derivedFmax
  have hnyq : 0 < fs / 2 := by positivity
  have hlt : frac_nyq * (fs / 2) < fs / 2 := by nlinarith
  rw [if_neg (not_le.mpr hlt)]

/-- C2, witness: the amended statement applied at `fs = 2`,
`fraction_of_nyquist = 1/2`. -/
theorem C2_witness :
    (0 : ℚ) < 2 ∧ (0 : ℚ) < 1/2 ∧ (1/2 : ℚ) < 1 ∧
      derivedFmax (1/2) 2 = (1/2 : ℚ) * (2 / 2) :=
  ⟨by norm_num, by norm_num, by norm_num,
    C2_derived_max_hz 2 (1/2) (by norm_num) (by norm_num) (by norm_num)⟩

/-- C10: for every `(min_hz, fraction_of_nyquist, fs)`, the
band-restriction stage fails — carrying exactly the three values
`(min_hz, max_hz, nyquist)` — if and only if the derived parameters
violate `0 < min_hz < max_hz < nyquist`, and succeeds (handing
`(min_hz, max_hz)` to the external filter) otherwise. -/
theorem C10_band_validation (fmin frac_nyq fs : ℚ) :
    (bandpass_to_frac_nyq fmin frac_nyq fs =
        Except.error (fmin, derivedFmax frac_nyq fs, fs / 2) ↔
      ¬(0 < fmin ∧ fmin < derivedFmax frac_nyq fs ∧
        derivedFmax frac_nyq fs < fs / 2)) ∧
    (bandpass_to_frac_nyq fmin frac_nyq fs =
        Except.ok (fmin, derivedFmax frac_nyq fs) ↔
      (0 < fmin ∧ fmin < derivedFmax frac_nyq fs ∧
        derivedFmax frac_nyq fs < fs / 2)) := by
  by_cases h : 0 < fmin ∧ fmin < derivedFmax frac_nyq fs ∧
    derivedFmax frac_nyq fs < fs / 2
  · simp [bandpass_to_frac_nyq, h]
  · simp [bandpass_to_frac_nyq, h]

/-- The exported binary's sample count is frames times channels. -/
theorem write_binary_length (rec : Rec) :
    (write_binary rec).length = rec.nSamples * rec.nChan := by
  simp [write_binary, List.length_flatMap, Function.comp_def, List.map_const']

/-- C9: for every recording and `(start_s, duration_s)`, the time-window
stage maps the pair to the half-open frame interval
`[round(start_s*fs), round((start_s+duration_s)*fs))` (frame count and
per-frame values), `duration_s = None` returns the recording unchanged,
and in the concrete scenario (2 channels, 10 samples, fs = 1000,
start_s = 0, dur_s = 0.005) the window resolves to frames [0,5) and the
exported binary holds exactly 2*5 samples. -/
theorem C9_time_window_and_export (rec : Rec) (start_s d : ℚ) :
    slice_seconds rec start_s none = rec ∧
    ((slice_seconds rec start_s (some d)).nSamples =
        (pyRound ((start_s + d) * rec.fs)).toNat -
          (pyRound (start_s * rec.fs)).toNat ∧
      ∀ f c, (slice_seconds rec start_s (some d)).val f c =
        rec.val ((pyRound (start_s * rec.fs)).toNat + f) c) ∧
    (rec.nChan = 2 → rec.nSamples = 10 → rec.fs = 1000 →
      (slice_seconds rec 0 (some (5/1000))).nSamples = 5 ∧
      (∀ f c, (slice_seconds rec 0 (some (5/1000))).val f c = rec.val f c) ∧
      (write_binary (slice_seconds rec 0 (some (5/1000)))).length = 2 * 5) := by
  refine ⟨rfl, ⟨rfl, fun f c => rfl⟩, fun h2 _ hfs => ?_⟩
  have hs : (pyRound (0 * rec.fs)).toNat = 0 := by
    rw [hfs]; norm_num [pyRound]
  have he : (pyRound ((0 + 5/1000) * rec.fs)).toNat = 5 := by
    rw [hfs]; norm_num [pyRound]; rfl
  refine ⟨?_, fun f c => ?_, ?_⟩
  · show (pyRound ((0 + 5/1000) * rec.fs)).toNat -
      (pyRound (0 * rec.fs)).toNat = 5
    rw [hs, he]
  · show rec.val ((pyRound (0 * rec.fs)).toNat + f) c = rec.val f c
    rw [hs, Nat.zero_add]
  · rw [write_binary_length]
    show ((pyRound ((0 + 5/1000) * rec.fs)).toNat -
      (pyRound (0 * rec.fs)).toNat) * rec.nChan = 2 * 5
    rw [hs, he, h2]

/-- C9, witness: the scenario instantiated at a concrete 2×10 recording at
fs = 1000. -/
theorem C9_witness :
    (slice_seconds ⟨1000, 2, 10, fun f c => f + c⟩ 0 (some (5/1000))).nSamples = 5 ∧
    (write_binary (slice_seconds ⟨1000, 2, 10, fun f c => f + c⟩ 0
      (some (5/1000)))).length = 2 * 5 := by
  have h := C9_time_window_and_export ⟨1000, 2, 10, fun f c => f + c⟩ 0 (5/1000)
  exact ⟨(h.2.2 rfl rfl rfl).1, (h.2.2 rfl rfl rfl).2.2⟩

/-- The seed of a max-fold never exceeds the result, nor does any member. -/
theorem le_foldl_max (l : List ℚ) :
    ∀ a : ℚ, a ≤ l.foldl max a ∧ ∀ x ∈ l, x ≤ l.foldl max a := by
  induction l with
  | nil => exact fun a => ⟨le_refl a, by simp⟩
  | cons y ys ih =>
    intro a
    refine ⟨le_trans (le_max_left a y) (ih (max a y)).1, fun x hx => ?_⟩
    rcases List.mem_cons.mp hx with h | h
    · subst h; exact le_trans (le_max_right a x) (ih (max a x)).1
    · exact (ih (max a y)).2 x h

/-- A max-fold returns its seed or one of the list members. -/
theorem foldl_max_mem (l : List ℚ) :
    ∀ a : ℚ, l.foldl max a = a ∨ l.foldl max a ∈ l := by
  induction l with
  | nil => exact fun a => Or.inl rfl
  | cons y ys ih =>
    intro a
    rcases ih (max a y) with h | h
    · rcases max_choice a y with hm | hm
      · left; rw [List.foldl_cons, h, hm]
      · right; rw [List.foldl_cons, h, hm]; exact List.mem_cons_self y ys
    · right; exact List.mem_cons_of_mem y h

/-- `np.max` of a nonempty list is a member. -/
theorem npMax_mem (l : List ℚ) (h : l ≠ []) : npMax l ∈ l := by
  match l with
  | x :: xs =>
    rcases foldl_max_mem xs x with h1 | h1
    · rw [npMax, h1]; exact List.mem_cons_self x xs
    · exact List.mem_cons_of_mem x h1

/-- `np.max` of a list bounds every member. -/
theorem le_npMax (l : List ℚ) (x : ℚ) (hx : x ∈ l) : x ≤ npMax l := by
  match l with
  | y :: ys =>
    rcases List.mem_cons.mp hx with h | h
    · subst h; exact (le_foldl_max ys x).1
    · exact (le_foldl_max ys y).2 x h

/-- C8: for every spike-sort output (spike times as sample indices, cluster
ids), the QC effective duration is the caller-provided duration when given,
otherwise the maximum observed spike time in seconds, and zero when there
are zero spikes; and every per-unit firing rate is that unit's spike count
divided by the effective duration, or zero when the effective duration is
zero (division never occurs at zero). -/
theorem C8_qc_duration_and_rates (spike_times : List ℕ) (spike_clusters : List ℤ)
    (fs_hz : ℚ) (durGiven : Option ℚ) (D : ℚ) (hfs : 0 < fs_hz)
    (hgiven : ∀ q, durGiven = some q → 0 ≤ q)
    (hD : D = effectiveDuration (spikeTimesSeconds spike_times fs_hz) durGiven) :
    0 ≤ D ∧
    (∀ q, durGiven = some q → D = q) ∧
    (durGiven = none → spike_times = [] → D = 0) ∧
    (durGiven = none → spike_times ≠ [] →
      D ∈ spikeTimesSeconds spike_times fs_hz ∧
        ∀ x ∈ spikeTimesSeconds spike_times fs_hz, x ≤ D) ∧
    (∀ u ∈ qcUnitIds spike_clusters,
      (0 < D → unitFiringRate spike_clusters D u =
        (spike_clusters.count u : ℚ) / D) ∧
      (D = 0 → unitFiringRate spike_clusters D u = 0)) := by
  subst hD
  have hnonneg : ∀ x ∈ spikeTimesSeconds spike_times fs_hz, 0 ≤ x := by
    intro x hx
    rw [spikeTimesSeconds] at hx
    obtain ⟨t, _, rfl⟩ := List.mem_map.mp hx
    exact div_nonneg (Nat.cast_nonneg t) hfs.le
  have hne : spike_times ≠ [] → spikeTimesSeconds spike_times fs_hz ≠ [] := by
    intro h hc
    rw [spikeTimesSeconds] at hc
    exact h (List.map_eq_nil_iff.mp hc)
  refine ⟨?_, ?_, ?_, ?_, ?_⟩
  · cases durGiven with
    | some q => simpa [effectiveDuration] using hgiven q rfl
    | none =>
      by_cases h : spikeTimesSeconds spike_times fs_hz = []
      · simp [effectiveDuration, h]
      · simp only [effectiveDuration, if_neg h]
        exact hnonneg _ (npMax_mem _ h)
  · intro q hq; subst hq; rfl
  · intro h0 hempty; subst h0
    have : spikeTimesSeconds spike_times fs_hz = [] := by
      simp [spikeTimesSeconds, hempty]
    simp [effectiveDuration, this]
  · intro h0 hnonempty; subst h0
    have h := hne hnonempty
    simp only [effectiveDuration, if_neg h]
    exact ⟨npMax_mem _ h, fun x hx => le_npMax _ x hx⟩
  · intro u _
    constructor
    · intro hpos; simp [unitFiringRate, hpos]
    · intro h0; simp [unitFiringRate, h0]

/-- C8, witness: spike times [10, 20] at fs = 10 with no caller-provided
duration give effective duration 2 s; unit 1 (two spikes) fires at 1 Hz. -/
theorem C8_witness :
    effectiveDuration (spikeTimesSeconds [10, 20] 10) none ∈
        spikeTimesSeconds [10, 20] 10 ∧
      unitFiringRate [1, 1, 2] (effectiveDuration
        (spikeTimesSeconds [10, 20] 10) none) 1 =
        (([1, 1, 2] : List ℤ).count 1 : ℚ) /
          effectiveDuration (spikeTimesSeconds [10, 20] 10) none := by
  have h := C8_qc_duration_and_rates [10, 20] [1, 1, 2] 10 none
    (effectiveDuration (spikeTimesSeconds [10, 20] 10) none) (by norm_num)
    (fun q hq => by cases hq) rfl
  refine ⟨(h.2.2.2.1 rfl (by simp)).1, ?_⟩
  have hDpos : 0 < effectiveDuration (spikeTimesSeconds [10, 20] 10) none := by
    rw [show spikeTimesSeconds [10, 20] 10 = [1, 2] by norm_num [spikeTimesSeconds]]
    simp only [effectiveDuration]
    rw [if_neg (by simp)]
    norm_num [npMax]
  have hu : (1 : ℤ) ∈ qcUnitIds [1, 1, 2] := by decide
  exact (h.2.2.2.2 1 hu).1 hDpos

/-- C6, counterexample: a file whose stream groups are `well001` and
`well1` — two distinct group names parsing to the same numeric index —
makes well discovery return `(1, 1)`: sorted, but not the *unique* indices
(`sorted(wells)` never deduplicates). -/
theorem C6_counterexample :
    get_available_wells (some ["well001", "well1"]) = [1, 1] ∧
      ¬ (get_available_wells (some ["well001", "well1"])).Nodup := by
  decide

/-- C6, amended: well discovery returns the sorted (not deduplicated)
numeric indices parsed from group names matching the `well<NNN>`
convention, and on any structural anomaly — missing hierarchy or
underlying error (`wellGroups = none`) or parse failure on all entries —
returns the fixed canonical default set (0,1,2,3,4,5); the function is
total, so discovery never raises. -/
theorem C6_discovery (wellGroups : Option (List String)) :
    (get_available_wells wellGroups).Sorted (· ≤ ·) ∧
    (wellGroups = none → get_available_wells wellGroups = defaultWells) ∧
    (∀ names, wellGroups = some names →
      (names.filterMap parseWellName = [] →
        get_available_wells wellGroups = defaultWells) ∧
      (names.filterMap parseWellName ≠ [] →
        (get_available_wells wellGroups).Perm (names.filterMap parseWellName))) := by
  cases wellGroups with
  | none =>
    refine ⟨by decide, fun _ => rfl, fun names h => by cases h⟩
  | some names =>
    by_cases h : names.filterMap parseWellName = []
    · have hdef : get_available_wells (some names) = defaultWells := by
        simp [get_available_wells, h]
      refine ⟨?_, ?_, ?_⟩
      · rw [hdef]; decide
      · intro hc; cases hc
      · intro ns hns
        cases hns
        exact ⟨fun _ => hdef, fun hne => absurd h hne⟩
    · have hsort : get_available_wells (some names) =
          List.insertionSort (fun a b => a ≤ b) (names.filterMap parseWellName) := by
        simp [get_available_wells, h]
      refine ⟨?_, ?_, ?_⟩
      · rw [hsort]
        exact List.sorted_insertionSort (fun a b => a ≤ b) _
      · intro hc; cases hc
      · intro ns hns
        cases hns
        refine ⟨fun hc => absurd hc h, fun _ => ?_⟩
        rw [hsort]
        exact List.perm_insertionSort (fun a b => a ≤ b) _

/-- C6, witness: the amended statement applied to a listing whose parsed
indices are nonempty and out of order. -/
theorem C6_witness :
    (get_available_wells (some ["well003", "well001"])).Sorted (· ≤ ·) ∧
      (get_available_wells (some ["well003", "well001"])).Perm
        (["well003", "well001"].filterMap parseWellName) := by
  have h := C6_discovery (some ["well003", "well001"])
  exact ⟨h.1, (h.2.2 _ rfl).2 (by decide)⟩

/-- An overwriting fold over `range n` (the dict-comprehension pattern)
either keeps its seed — when no index satisfies the predicate — or returns
`some i` for an index that does. -/
theorem foldl_overwrite_spec (p : ℕ → Prop) [DecidablePred p] :
    ∀ (n : ℕ) (acc : Option ℕ),
      ((List.range n).foldl (fun a i => if p i then some i else a) acc = acc ∧
        ∀ i, i < n → ¬ p i) ∨
      (∃ i, i < n ∧ p i ∧
        (List.range n).foldl (fun a i => if p i then some i else a) acc = some i) := by
  intro n
  induction n with
  | zero =>
    intro acc
    left
    exact ⟨rfl, fun i hi => absurd hi (by omega)⟩
  | succ m ih =>
    intro acc
    rw [List.range_succ, List.foldl_append, List.foldl_cons, List.foldl_nil]
    by_cases hp : p m
    · right
      exact ⟨m, Nat.lt_succ_self m, hp, by rw [if_pos hp]⟩
    · rcases ih acc with ⟨heq, hnone⟩ | ⟨i, hi, hpi, heq⟩
      · left
        rw [if_neg hp, heq]
        refine ⟨rfl, fun i hi => ?_⟩
        rcases Nat.lt_succ_iff_lt_or_eq.mp hi with h | h
        · exact hnone i h
        · subst h; exact hp
      · right
        rw [if_neg hp, heq]
        exact ⟨i, by omega, hpi, rfl⟩

/-- When some mapping row carries channel id `c`, the id→row lookup finds a
row index carrying `c`. -/
theorem chanToRow_mem (mapping : List MapRow) (c : ℤ)
    (h : ∃ i, i < mapping.length ∧ (mapping.getD i ⟨0, 0, 0⟩).channel = c) :
    ∃ j, chanToRow mapping c = some j ∧ j < mapping.length ∧
      (mapping.getD j ⟨0, 0, 0⟩).channel = c := by
  rcases foldl_overwrite_spec (fun i => (mapping.getD i ⟨0, 0, 0⟩).channel = c)
      mapping.length none with ⟨_, hnone⟩ | ⟨i, hi, hpi, heq⟩
  · obtain ⟨i, hi, hc⟩ := h
    exact absurd hc (hnone i hi)
  · exact ⟨i, heq, hi, hpi⟩

/-- `mapM` over `Option` succeeds when every element maps to `some`, and
returns the pointwise default-stripped values. -/
theorem mapM_option_total {α β : Type} (f : α → Option β) (d : β) :
    ∀ l : List α, (∀ a ∈ l, ∃ b, f a = some b) →
      l.mapM f = some (l.map (fun a => (f a).getD d)) := by
  intro l
  induction l with
  | nil => intro _; rfl
  | cons x xs ih =>
    intro h
    obtain ⟨b, hb⟩ := h x (List.mem_cons_self x xs)
    rw [List.mapM_cons, hb, ih (fun a ha => h a (List.mem_cons_of_mem x ha))]
    simp [hb]

/-- C7: with an explicit active-channel id list, the resolved geometry is
ordered by that list — position `j` holds the (x, y) of a mapping-table row
whose channel id equals the `j`-th supplied id, found by id→row lookup
rather than positional indexing — and absent an explicit list the mapping
table's own row order is used directly. -/
theorem C7_geometry_ordering (mapping : List MapRow) (ids : List ℤ)
    (hpresent : ∀ c ∈ ids, ∃ i, i < mapping.length ∧
      (mapping.getD i ⟨0, 0, 0⟩).channel = c) :
    (∃ g, resolve_geometry mapping (some ids) = some g ∧
      g.length = ids.length ∧
      ∀ j, j < ids.length → ∃ i, i < mapping.length ∧
        (mapping.getD i ⟨0, 0, 0⟩).channel = ids.getD j 0 ∧
        g.getD j (0, 0) =
          ((mapping.getD i ⟨0, 0, 0⟩).x, (mapping.getD i ⟨0, 0, 0⟩).y)) ∧
    resolve_geometry mapping none = mapping.map (fun m => (m.x, m.y)) := by
  constructor
  · have htot : ∀ c ∈ ids, ∃ b, geomOf mapping c = some b := by
      intro c hc
      obtain ⟨j, hj, _, _⟩ := chanToRow_mem mapping c (hpresent c hc)
      exact ⟨_, by rw [geomOf, hj]; rfl⟩
    have hmapM := mapM_option_total (geomOf mapping) ((0 : ℚ), (0 : ℚ)) ids htot
    refine ⟨_, hmapM, by simp, ?_⟩
    intro j hjlen
    have hmem : ids.getD j 0 ∈ ids := by
      rw [List.getD_eq_getElem _ _ hjlen]
      exact List.getElem_mem hjlen
    obtain ⟨r, hr, hrlen, hrch⟩ :=
      chanToRow_mem mapping (ids.getD j 0) (hpresent _ hmem)
    refine ⟨r, hrlen, hrch, ?_⟩
    have hj2 : j < (ids.map (fun a => (geomOf mapping a).getD ((0 : ℚ), (0 : ℚ)))).length := by
      simpa using hjlen
    rw [List.getD_eq_getElem _ _ hjlen] at hr
    rw [List.getD_eq_getElem _ _ hj2, List.getElem_map]
    simp only [geomOf, hr, Option.map_some', Option.getD_some]
  · rfl

/-- C7, witness: a two-row mapping looked up with the id list in the
reverse of the table's row order. -/
theorem C7_witness :
    ∃ g, resolve_geometry [⟨5, 1, 2⟩, ⟨7, 3, 4⟩] (some [7, 5]) = some g ∧
      g.length = 2 ∧
      ∀ j, j < 2 → ∃ i, i < 2 ∧
        ((([⟨5, 1, 2⟩, ⟨7, 3, 4⟩] : List MapRow).getD i ⟨0, 0, 0⟩).channel =
          ([7, 5] : List ℤ).getD j 0) := by
  have hp : ∀ c ∈ ([7, 5] : List ℤ), ∃ i, i < ([⟨5, 1, 2⟩, ⟨7, 3, 4⟩] : List MapRow).length ∧
      ((([⟨5, 1, 2⟩, ⟨7, 3, 4⟩] : List MapRow).getD i ⟨0, 0, 0⟩).channel = c) := by
    intro c hc
    rcases List.mem_cons.mp hc with h | h
    · subst h; exact ⟨1, by decide, rfl⟩
    · rcases List.mem_cons.mp h with h2 | h2
      · subst h2; exact ⟨0, by decide, rfl⟩
      · cases h2
  have h := (C7_geometry_ordering [⟨5, 1, 2⟩, ⟨7, 3, 4⟩] [7, 5] hp).1
  obtain ⟨g, hg, hlen, hchar⟩ := h
  refine ⟨g, hg, hlen, ?_⟩
  intro j hj
  obtain ⟨i, hi, hch, _⟩ := hchar j (by simpa using hj)
  exact ⟨i, by simpa using hi, hch⟩

/-- The 2D channels-by-samples encoding of a logical frames-by-channels
matrix `M`: element (channel c, sample s) holds `M s c`. -/
def encode2d (nS nCh : ℕ) (M : ℕ → ℕ → ℤ) : Arr2 :=
  ⟨nCh, nS, fun c s => M s c⟩

/-- The 1D interleaved encoding of the same logical matrix: flat index
`f*nCh + c` holds `M f c`. -/
def encode1d (nS nCh : ℕ) (M : ℕ → ℕ → ℤ) : Arr1 :=
  ⟨nS * nCh, fun i => M (i / nCh) (i % nCh)⟩

/-- The channel set a read returns: the explicit subset when given, all
channels otherwise. -/
def selChans (nCh : ℕ) (chans : Option (List ℕ)) : List ℕ :=
  match chans with
  | some cs => cs
  | none => List.range nCh

/-- Mapping over positions through `getD` is mapping over the list. -/
theorem map_range_getD {α β : Type} (cs : List α) (d : α) (g : α → β) :
    (List.range cs.length).map (fun j => g (cs.getD j d)) = cs.map g := by
  apply List.ext_getElem (by simp)
  intro j h1 h2
  have hj : j < cs.length := by simpa using h2
  rw [List.getElem_map, List.getElem_range, List.getElem_map,
    List.getD_eq_getElem _ _ hj]

/-- Decomposing a flat interleaved index. -/
theorem interleaved_index (nCh start r c : ℕ) (hc : c < nCh) :
    (start * nCh + (r * nCh + c)) / nCh = start + r ∧
      (start * nCh + (r * nCh + c)) % nCh = c := by
  have h : start * nCh + (r * nCh + c) = c + nCh * (start + r) := by ring
  constructor
  · rw [h, Nat.add_mul_div_left _ _ (by omega), Nat.div_eq_of_lt hc, Nat.zero_add]
  · rw [h, Nat.add_mul_mod_self_left, Nat.mod_eq_of_lt hc]

/-- The 2D read path returns the windowed logical matrix. -/
theorem get_traces_2d_encode (nS nCh : ℕ) (M : ℕ → ℕ → ℤ) (start stop : ℕ)
    (chans : Option (List ℕ)) (hs : stop ≤ nS) :
    (get_traces_2d (encode2d nS nCh M) start stop chans).toLists =
      (List.range (stop - start)).map (fun f =>
        (selChans nCh chans).map (fun c => M (start + f) c)) := by
  cases chans with
  | none =>
    simp only [get_traces_2d, encode2d, Arr2.colSlice, Arr2.T, Arr2.toLists,
      selChans, Nat.min_eq_left hs]
  | some cs =>
    simp only [get_traces_2d, encode2d, Arr2.colSlice, Arr2.T, Arr2.colIndex,
      Arr2.toLists, selChans, Nat.min_eq_left hs]
    refine List.map_congr_left ?_
    intro f _
    exact map_range_getD cs 0 (fun c => M (start + f) c)

/-- The 1D interleaved read path returns the same windowed logical matrix. -/
theorem get_traces_1d_encode (nS nCh : ℕ) (M : ℕ → ℕ → ℤ) (start stop : ℕ)
    (chans : Option (List ℕ)) (hnS : 0 < nS) (hnCh : 0 < nCh)
    (hs : stop ≤ nS)
    (hch : ∀ cs, chans = some cs → ∀ c ∈ cs, c < nCh) :
    (get_traces_1d (encode1d nS nCh M) nS start stop chans).toLists =
      (List.range (stop - start)).map (fun f =>
        (selChans nCh chans).map (fun c => M (start + f) c)) := by
  have hlen : nS * nCh / nS = nCh := Nat.mul_div_cancel_left nCh hnS
  have hmin : min (stop * nCh) (nS * nCh) = stop * nCh :=
    Nat.min_eq_left (Nat.mul_le_mul_right nCh hs)
  have hrows : (min (stop * nCh) (nS * nCh) - start * nCh) / nCh = stop - start := by
    rw [hmin, ← Nat.sub_mul, Nat.mul_div_cancel _ hnCh]
  have hval : ∀ r c, c < nCh →
      M ((start * nCh + (r * nCh + c)) / nCh) ((start * nCh + (r * nCh + c)) % nCh) =
        M (start + r) c := by
    intro r c hc
    rw [(interleaved_index nCh start r c hc).1, (interleaved_index nCh start r c hc).2]
  cases chans with
  | none =>
    simp only [get_traces_1d, encode1d, Arr1.slice, Arr1.reshapeNeg1, Arr2.toLists,
      hlen, hrows]
    refine List.map_congr_left ?_
    intro r _
    refine List.map_congr_left ?_
    intro c hc
    exact hval r c (List.mem_range.mp hc)
  | some cs =>
    simp only [get_traces_1d, encode1d, Arr1.slice, Arr1.reshapeNeg1, Arr2.colIndex,
      Arr2.toLists, hlen, hrows]
    refine List.map_congr_left ?_
    intro r _
    rw [map_range_getD cs 0
      (fun c => M ((start * nCh + (r * nCh + c)) / nCh) ((start * nCh + (r * nCh + c)) % nCh))]
    refine List.map_congr_left ?_
    intro c hc
    exact hval r c (hch cs rfl c hc)

/-- C4: a 2D channels-by-samples store and a 1D interleaved store encoding
the same logical frames-by-channels matrix return identical results from
`get_traces` over every frame sub-range and every channel subset (explicit
subset or all channels), both equal to the windowed logical matrix. -/
theorem C4_layout_equivalence (nS nCh : ℕ) (M : ℕ → ℕ → ℤ) (start stop : ℕ)
    (chans : Option (List ℕ)) (hnS : 0 < nS) (hnCh : 0 < nCh)
    (hs : stop ≤ nS)
    (hch : ∀ cs, chans = some cs → ∀ c ∈ cs, c < nCh) :
    (get_traces_2d (encode2d nS nCh M) start stop chans).toLists =
        (get_traces_1d (encode1d nS nCh M) nS start stop chans).toLists ∧
      (get_traces_2d (encode2d nS nCh M) start stop chans).toLists =
        (List.range (stop - start)).map (fun f =>
          (selChans nCh chans).map (fun c => M (start + f) c)) := by
  have h2 := get_traces_2d_encode nS nCh M start stop chans hs
  have h1 := get_traces_1d_encode nS nCh M start stop chans hnS hnCh hs hch
  exact ⟨h2.trans h1.symm, h2⟩

/-- C4, witness: a 3-frame, 2-channel matrix windowed to frames [1,3) with
the channel subset [1, 0]. -/
theorem C4_witness :
    (get_traces_2d (encode2d 3 2 (fun f c => 10 * f + c)) 1 3 (some [1, 0])).toLists =
        (get_traces_1d (encode1d 3 2 (fun f c => 10 * f + c)) 3 1 3 (some [1, 0])).toLists ∧
      (get_traces_2d (encode2d 3 2 (fun f c => 10 * f + c)) 1 3 (some [1, 0])).toLists =
        [[11, 10], [21, 20]] := by
  have h := C4_layout_equivalence 3 2 (fun f c => 10 * f + c) 1 3 (some [1, 0])
    (by decide) (by decide) (by decide)
    (fun cs hcs => by cases hcs; decide)
  refine ⟨h.1, ?_⟩
  decide

/-- C3, counterexample: dry-run is requested, yet a Pending well whose skip
gate also holds (skip-existing on, both markers present) transitions to
Skip, not DryRunPreview — the skip check runs first, so "DryRunPreview iff
dry-run requested" fails. -/
theorem C3_counterexample :
    (process_one_well ⟨some 5, true, 20000, true⟩ ["out"] {} 0 true true
      ⟨[], [["out", "well000", "ks4", "spike_times.npy"],
        ["out", "well000", "ks4", "spike_clusters.npy"]]⟩).2 = WellResult.skipped ∧
    (process_one_well ⟨some 5, true, 20000, true⟩ ["out"] {} 0 true true
      ⟨[], [["out", "well000", "ks4", "spike_times.npy"],
        ["out", "well000", "ks4", "spike_clusters.npy"]]⟩).2.isDryRun = false := by
  decide

/-- C3, amended: a Pending well transitions to DryRunPreview iff dry-run is
requested AND the skip transition does not fire first (skip-existing with
both markers present takes priority); in the preview the well leaves the
filesystem untouched, shows exactly the probe's result (a failed probe,
`none`, is displayed as "unknown" rather than raised), and prints the
intended output paths. -/
theorem C3_dry_run_gate (world : WellWorld) (out_root : FPath)
    (cfg : PipelineConfig) (w : ℤ) (skip_existing dry_run : Bool) (fs0 : FS) :
    ((process_one_well world out_root cfg w skip_existing dry_run fs0).2.isDryRun
        = true ↔
      (dry_run = true ∧
        ¬(skip_existing = true ∧
          ks4_done fs0 (out_root ++ [streamName w, "ks4"]) = true))) ∧
    (∀ d ps, (process_one_well world out_root cfg w skip_existing dry_run fs0).2 =
        WellResult.dryRun d ps →
      (process_one_well world out_root cfg w skip_existing dry_run fs0).1 = fs0 ∧
        d = world.durationProbe ∧
        ps = [out_root ++ [streamName w, "preprocessed", "traces.bin"],
          out_root ++ [streamName w, "preprocessed", "ks4_probe.json"],
          out_root ++ [streamName w, "ks4"],
          out_root ++ [streamName w, "qc"]]) := by
  by_cases hgate : (skip_existing &&
      ks4_done fs0 (out_root ++ [streamName w, "ks4"])) = true
  · have hg := (Bool.and_eq_true _ _).mp hgate
    rw [process_one_well_skip world out_root cfg w skip_existing dry_run fs0 hgate]
    refine ⟨?_, ?_⟩
    · simp [WellResult.isDryRun, hg.1, hg.2]
    · intro d ps hdp
      cases hdp
  · have hgf : (skip_existing &&
        ks4_done fs0 (out_root ++ [streamName w, "ks4"])) = false :=
      Bool.eq_false_iff.mpr hgate
    have hnand : ¬(skip_existing = true ∧
        ks4_done fs0 (out_root ++ [streamName w, "ks4"]) = true) := by
      rintro ⟨ha, hb⟩
      rw [ha, hb] at hgf
      cases hgf
    cases hdry : dry_run with
    | false =>
      rw [process_one_well_run world out_root cfg w skip_existing false fs0 hgf rfl]
      have hres := run_well_body_result world cfg
        (out_root ++ [streamName w, "preprocessed"])
        (out_root ++ [streamName w, "ks4"])
        (out_root ++ [streamName w, "qc"])
        (out_root ++ [streamName w, "preprocessed", "traces.bin"])
        (out_root ++ [streamName w, "preprocessed", "ks4_probe.json"])
        (out_root ++ [streamName w, "preprocessed", "channel_xy.npy"])
        (out_root ++ [streamName w, "preprocessed", "meta.json"]) fs0
      refine ⟨?_, ?_⟩
      · rcases hres with hr | hr <;> rw [hr] <;> simp [WellResult.isDryRun]
      · intro d ps hdp
        rcases hres with hr | hr <;> rw [hr] at hdp <;> cases hdp
    | true =>
      rw [process_one_well_dry world out_root cfg w skip_existing true fs0 hgf rfl]
      refine ⟨?_, ?_⟩
      · simp [WellResult.isDryRun, hnand]
      · intro d ps hdp
        cases hdp
        exact ⟨rfl, rfl, rfl⟩

/-- C3, witness: a dry-run on an empty filesystem with a failing duration
probe previews (duration shown unknown) and mutates nothing. -/
theorem C3_witness :
    (process_one_well ⟨none, true, 20000, true⟩ ["out"] {} 0 false true
      ⟨[], []⟩).2.isDryRun = true ∧
    (process_one_well ⟨none, true, 20000, true⟩ ["out"] {} 0 false true
      ⟨[], []⟩).1 = (⟨[], []⟩ : FS) := by
  have h := C3_dry_run_gate ⟨none, true, 20000, true⟩ ["out"] {} 0 false true ⟨[], []⟩
  have h1 : (process_one_well ⟨none, true, 20000, true⟩ ["out"] {} 0 false true
      ⟨[], []⟩).2.isDryRun = true := by
    refine h.1.mpr ⟨rfl, ?_⟩
    rintro ⟨hc, _⟩
    cases hc
  obtain ⟨d, ps, hdp⟩ := (WellResult.isDryRun_iff _).mp h1
  exact ⟨h1, (h.2 d ps hdp).1⟩

/-- C5: with skip-existing enabled a well is skipped — returning with the
filesystem untouched — iff both completion markers (spike_times.npy and
spike_clusters.npy) already exist in its ks4 directory; consequently a
second orchestrator run after a first run in which every well completed
(or was already skipped) performs zero filesystem writes and skips every
well. -/
theorem C5_skip_iff_idempotent :
    (∀ (world : WellWorld) (out_root : FPath) (cfg : PipelineConfig) (w : ℤ)
        (dry_run : Bool) (fs0 : FS),
      ((process_one_well world out_root cfg w true dry_run fs0).2 = .skipped ↔
        ks4_done fs0 (out_root ++ [streamName w, "ks4"]) = true) ∧
      ((process_one_well world out_root cfg w true dry_run fs0).2 = .skipped →
        (process_one_well world out_root cfg w true dry_run fs0).1 = fs0)) ∧
    (∀ (wellGroups : Option (List String)) (wellWorld : ℤ → WellWorld)
        (out_root : FPath) (cfg : PipelineConfig) (wells : Option (List ℤ))
        (only_well : Option ℤ) (fs0 : FS),
      (∀ r ∈ (process_h5 wellGroups wellWorld out_root cfg wells only_well
          true false fs0).2, r = .completed ∨ r = .skipped) →
      process_h5 wellGroups wellWorld out_root cfg wells only_well true false
          (process_h5 wellGroups wellWorld out_root cfg wells only_well
            true false fs0).1 =
        ((process_h5 wellGroups wellWorld out_root cfg wells only_well
            true false fs0).1,
          (resolveWells wellGroups wells only_well).map
            (fun _ => WellResult.skipped))) := by
  constructor
  · intro world out_root cfg w dry_run fs0
    exact process_one_well_skipped_iff world out_root cfg w dry_run fs0
  · intro wg ww out cfg wells ow fs0 hall
    have hmark := process_h5_wells_markers ww out cfg false
      (resolveWells wg wells ow) fs0 hall
    exact process_h5_wells_all_done ww out cfg false (resolveWells wg wells ow) _ hmark

/-- C5, witness: a well whose markers exist is skipped, and re-running the
single-file orchestrator on the state left by a first (all-skipped,
successful) run changes nothing and reports Skip. -/
theorem C5_witness :
    ((process_one_well ⟨some 5, true, 20000, true⟩ ["out"] {} 0 true false
        ⟨[], [["out", "well000", "ks4", "spike_times.npy"],
          ["out", "well000", "ks4", "spike_clusters.npy"]]⟩).2 =
      WellResult.skipped) ∧
    process_h5 (some ["well000"]) (fun _ => ⟨some 5, true, 20000, true⟩) ["out"]
        {} (some [0]) none true false
        (process_h5 (some ["well000"]) (fun _ => ⟨some 5, true, 20000, true⟩)
          ["out"] {} (some [0]) none true false
          ⟨[], [["out", "well000", "ks4", "spike_times.npy"],
            ["out", "well000", "ks4", "spike_clusters.npy"]]⟩).1 =
      ((process_h5 (some ["well000"]) (fun _ => ⟨some 5, true, 20000, true⟩)
          ["out"] {} (some [0]) none true false
          ⟨[], [["out", "well000", "ks4", "spike_times.npy"],
            ["out", "well000", "ks4", "spike_clusters.npy"]]⟩).1,
        [WellResult.skipped]) := by
  have h := C5_skip_iff_idempotent
  constructor
  · exact (h.1 ⟨some 5, true, 20000, true⟩ ["out"] {} 0 false
      ⟨[], [["out", "well000", "ks4", "spike_times.npy"],
        ["out", "well000", "ks4", "spike_clusters.npy"]]⟩).1.mpr (by decide)
  · exact h.2 (some ["well000"]) (fun _ => ⟨some 5, true, 20000, true⟩) ["out"]
      {} (some [0]) none
      ⟨[], [["out", "well000", "ks4", "spike_times.npy"],
        ["out", "well000", "ks4", "spike_clusters.npy"]]⟩ (by decide)

/-- C1: evaluated at a dry-run invocation over one file `sub/a.h5` with an
initially empty filesystem, the recursive-directory orchestrator previews
every well (all results are DryRunPreview) yet mutates the filesystem:
`process_directory` runs `file_out.mkdir(parents=True, exist_ok=True)`
unconditionally before dispatching each file, so `out/sub` is created; the
flat mode likewise creates `out/a`.  The single-file path (`process_h5`)
performs zero mutations under dry-run, so the violation is specific to the
directory modes' per-file `mkdir`. -/
theorem C1_dry_run_directory_mutates :
    ((process_directory [⟨["sub"], "a.h5", some ["well000"],
        fun _ => ⟨some 5, true, 20000, true⟩⟩] ["out"] {} none none true true
        ⟨[], []⟩).1 ≠ (⟨[], []⟩ : FS)) ∧
    (["out", "sub"] ∈ (process_directory [⟨["sub"], "a.h5", some ["well000"],
        fun _ => ⟨some 5, true, 20000, true⟩⟩] ["out"] {} none none true true
        ⟨[], []⟩).1.dirs) ∧
    (∀ rs ∈ (process_directory [⟨["sub"], "a.h5", some ["well000"],
        fun _ => ⟨some 5, true, 20000, true⟩⟩] ["out"] {} none none true true
        ⟨[], []⟩).2, ∀ r ∈ rs, r.isDryRun = true) ∧
    (["out", "a"] ∈ (process_directory_flat [⟨[], "a.h5", some ["well000"],
        fun _ => ⟨some 5, true, 20000, true⟩⟩] ["out"] {} none none true true
        ⟨[], []⟩).1.dirs) ∧
    ((process_h5 (some ["well000"]) (fun _ => ⟨some 5, true, 20000, true⟩)
        ["out"] {} none none true true ⟨[], []⟩).1 = (⟨[], []⟩ : FS)) := by
  decide

end MxwSort
